import Mathlib

/-!
Shallow embedding of `src/lib/biojsvisgprofiler.js` (biojs-vis-gprofiler).

Conventions of the embedding:

* JavaScript numbers are modelled by `JSNum`: rationals stand in for IEEE
  doubles (rounding is disregarded), with explicit NaN and signed infinities so
  that the division by a possibly-zero total in `_scoreClels` is modelled
  faithfully.  The transcendental sizing/scoring arithmetic
  (`Math.log`-based) is modelled over the reals.
* A JavaScript object used as a dictionary with string keys is modelled as an
  association list of own properties: assignment to an existing key keeps its
  position and replaces the value, assignment to a fresh key appends it.  A
  property read falls back to the inherited `Object.prototype` members (all of
  them truthy), and enumeration (`Object.keys`, hence `_.values` and `$.each`)
  lists canonical array-index keys first in ascending numeric order, then the
  remaining string keys in insertion order.
* The comparator of `_sortAndCapClels` returns a boolean, which
  `Array.prototype.sort` coerces to the numbers 0 and 1 — never a negative
  number — so it is not a consistent comparison function and ECMAScript leaves
  the resulting order implementation-defined.  The engine this browser library
  predominantly runs on (V8) moves an element only when the comparator returns
  a negative number, in the binary-insertion search for short arrays as well
  as in run detection and merging for long ones, so its sort returns the array
  unchanged here.  The embedding carries out the binary-insertion search
  itself and the identity behaviour on never-negative comparators is proved,
  not assumed.
* The record payload carried next to each string is opaque to `_collapseClels`,
  `_scoreClels` and `_sortAndCapClels`, so those are polymorphic in it; the
  default callbacks that do inspect the g:Profiler term structure use `GTerm`.
-/

namespace GProfilerVis

/-- One enriched functional term as returned by g:Profiler (the fields of the
record that the code under `src/lib` reads). -/
structure GTerm where
  term_id : String
  term_name : String
  p_value : ℝ
  domain : String

/-- JavaScript numeric values: a rational payload plus NaN and the two
infinities. -/
inductive JSNum where
  | nan : JSNum
  | inf : JSNum
  | ninf : JSNum
  | num : ℚ → JSNum
deriving DecidableEq

namespace JSNum

/-- JavaScript `+` on numbers. -/
def jsadd : JSNum → JSNum → JSNum
  | nan, _ => nan
  | _, nan => nan
  | inf, ninf => nan
  | ninf, inf => nan
  | inf, _ => inf
  | _, inf => inf
  | ninf, _ => ninf
  | _, ninf => ninf
  | num a, num b => num (a + b)

/-- JavaScript `/` on numbers.  Division of zero by zero is NaN; division of a
nonzero value by zero gives a signed infinity.  (Negative zero is not
representable in `ℚ`; the code only ever divides by an accumulated sum that
starts at `+0`, so this loses nothing.) -/
def jsdiv : JSNum → JSNum → JSNum
  | nan, _ => nan
  | _, nan => nan
  | inf, inf => nan
  | inf, ninf => nan
  | ninf, inf => nan
  | ninf, ninf => nan
  | inf, num b => if b < 0 then ninf else inf
  | ninf, num b => if b < 0 then inf else ninf
  | num _, inf => num 0
  | num _, ninf => num 0
  | num a, num b =>
    if b = 0 then (if a = 0 then nan else if 0 < a then inf else ninf)
    else num (a / b)

/-- JavaScript `<` on numbers: any comparison involving NaN is false. -/
def jslt : JSNum → JSNum → Bool
  | nan, _ => false
  | _, nan => false
  | inf, _ => false
  | _, inf => true
  | ninf, ninf => false
  | ninf, num _ => true
  | num _, ninf => false
  | num a, num b => decide (a < b)

end JSNum

/-- Assignment `m[k] = v` on a JavaScript object modelled as an
insertion-ordered association list. -/
def jsObjInsert (m : List (String × α)) (k : String) (v : α) : List (String × α) :=
  if m.any (fun p => p.1 == k) then m.map (fun p => if p.1 == k then (k, v) else p)
  else m ++ [(k, v)]

/-- Property read `m[k]` on a JavaScript object; `none` is `undefined`. -/
def jsObjGet (m : List (String × α)) (k : String) : Option α :=
  (m.find? (fun p => p.1 == k)).map (fun p => p.2)

/-- The property names every plain object inherits from `Object.prototype`.
Reading one of them on an object without an own property of that name yields
the inherited function (or, for `__proto__`, the prototype object) — a truthy
value, not `undefined`. -/
def protoKeys : List String :=
  ["constructor", "hasOwnProperty", "isPrototypeOf", "propertyIsEnumerable",
   "toLocaleString", "toString", "valueOf", "__proto__",
   "__defineGetter__", "__defineSetter__", "__lookupGetter__", "__lookupSetter__"]

/-- Numeric value of a digit string (helper for array-index detection). -/
def strDigitsVal (s : String) : Nat :=
  s.data.foldl (fun n c => n * 10 + (c.toNat - 48)) 0

/-- Whether a string is a canonical array index per ECMAScript: a digit string
with no leading zero (except "0" itself) whose value is below 2^32 - 1.  Such
keys are enumerated before all other keys, in ascending numeric order. -/
def isArrayIndex (s : String) : Bool :=
  !s.data.isEmpty && s.data.all Char.isDigit &&
    (s == "0" || !(s.data.head?.any (fun c => c == '0'))) &&
    decide (strDigitsVal s < 4294967295)

/-- Insert a key into a list of array-index keys kept in ascending numeric
order. -/
def insertAsc (x : String) : List String → List String
  | [] => [x]
  | y :: ys => if strDigitsVal x ≤ strDigitsVal y then x :: y :: ys else y :: insertAsc x ys

/-- Sort array-index keys into ascending numeric order. -/
def sortAsc (l : List String) : List String :=
  l.foldr insertAsc []

/-- `Object.keys` order for the own keys `ks` (given in insertion order):
canonical array indices first, ascending numerically, then the remaining keys
in insertion order. -/
def jsOwnKeysOrder (ks : List String) : List String :=
  sortAsc (ks.filter isArrayIndex) ++ ks.filter (fun s => !(isArrayIndex s))

/-- `_.values` of the collapse object: the stored value under each key is the
`[str, records]` pair itself, so enumerate the own keys in `Object.keys` order
and look each one up. -/
def jsObjEntries (h : List (String × α)) : List (String × α) :=
  (jsOwnKeysOrder (h.map Prod.fst)).filterMap (fun k => (jsObjGet h k).map (fun v => (k, v)))

/-! ### `_collapseClels` (the Normalizer)

`BioJSVisGProfiler.prototype._collapseClels`: collapse `[str, term]` pairs into
`[str, [t1, ..., tn]]` pairs with unique strings, accumulating into an object
keyed by the string and returning its values. -/

/-- The two regular outcomes of one iteration of the `$.each` loop in
`_collapseClels`: push onto an existing own entry, or create a fresh entry.
(Helper for the fallible step below.) -/
def collapsePure (h : List (String × List ρ)) (v : String × ρ) : List (String × List ρ) :=
  if h.any (fun p => p.1 == v.1) then
    h.map (fun p => if p.1 == v.1 then (p.1, p.2 ++ [v.2]) else p)
  else h ++ [(v.1, [v.2])]

/-- One iteration of the `$.each` loop in `_collapseClels`.  The guard
`!h[str]` reads through the prototype chain: when `str` has no own entry but
is an inherited `Object.prototype` name, `h[str]` is truthy, so the code runs
`h[str][1].push(t)` on the inherited function — indexing it gives `undefined`
and the `push` call throws a TypeError. -/
def collapseStep (h : List (String × List ρ)) (v : String × ρ) :
    Except Unit (List (String × List ρ)) :=
  if h.any (fun p => p.1 == v.1) then
    Except.ok (h.map (fun p => if p.1 == v.1 then (p.1, p.2 ++ [v.2]) else p))
  else if protoKeys.contains v.1 then Except.error ()
  else Except.ok (h ++ [(v.1, [v.2])])

/-- The `$.each` accumulation loop of `_collapseClels`; a thrown TypeError
aborts it. -/
def collapseLoop : List (String × ρ) → List (String × List ρ) →
    Except Unit (List (String × List ρ))
  | [], h => Except.ok h
  | v :: l, h =>
    match collapseStep h v with
    | Except.error e => Except.error e
    | Except.ok h2 => collapseLoop l h2

/-- `BioJSVisGProfiler.prototype._collapseClels`: accumulate into an object
keyed by the string, then return `_.values(h)` — the `[str, records]` pairs in
`Object.keys` enumeration order. -/
def collapseClels (clels : List (String × ρ)) : Except Unit (List (String × List ρ)) :=
  match collapseLoop clels [] with
  | Except.error e => Except.error e
  | Except.ok h => Except.ok (jsObjEntries h)

/-! ### `_scoreClels` (the Scorer) -/

/-- One iteration of the scoring loop in `_scoreClels`: store the raw score
under the string and add it to the running total. -/
def scoreClelsStep (scorer : String → List ρ → JSNum)
    (acc : List (String × JSNum) × JSNum) (cel : String × List ρ) :
    List (String × JSNum) × JSNum :=
  (jsObjInsert acc.1 cel.1 (scorer cel.1 cel.2), JSNum.jsadd acc.2 (scorer cel.1 cel.2))

/-- `BioJSVisGProfiler.prototype._scoreClels`: compute a raw score per clel,
total them, then divide every stored score by the total (there is no check
that the total is nonzero). -/
def scoreClels (scorer : String → List ρ → JSNum)
    (clels : List (String × List ρ)) : List (String × JSNum) :=
  let a := clels.foldl (scoreClelsStep scorer) ([], JSNum.num 0)
  a.1.map (fun p => (p.1, JSNum.jsdiv p.2 a.2))

/-! ### `_sortAndCapClels` (the Selector) -/

/-- The comparator literal passed to `clels.sort` in `_sortAndCapClels`:
`clelScores[a[0]] < clelScores[b[0]]` (a boolean, coerced to 0 or 1 by sort). -/
def sortClelComp (clelScores : String → JSNum) (a b : String × List ρ) : Bool :=
  JSNum.jslt (clelScores a.1) (clelScores b.1)

/-- `ToNumber` coercion that `Array.prototype.sort` applies to the
comparator's boolean result: `true` becomes 1, `false` becomes 0.  The coerced
comparator never returns a negative number. -/
def sortCompNum (clelScores : String → JSNum) (a b : String × List ρ) : Int :=
  if sortClelComp clelScores a b then 1 else 0

/-- The binary search of V8's insertion sort: find where to insert `pivot`
into the prefix `arr[left..right)`, moving left only when the comparator
returns a negative number.  `fuel` bounds the recursion; any value above
`right - left` is enough. -/
def binInsertPosAux (cmp : α → α → Int) (pivot : α) (arr : List α) :
    Nat → Nat → Nat → Nat
  | 0, left, _ => left
  | fuel + 1, left, right =>
    if left < right then
      let mid := (left + right) / 2
      if cmp pivot (arr.getD mid pivot) < 0 then
        binInsertPosAux cmp pivot arr fuel left mid
      else binInsertPosAux cmp pivot arr fuel (mid + 1) right
    else left

/-- Insertion position of `pivot` into the whole (already processed) list. -/
def binInsertPos (cmp : α → α → Int) (pivot : α) (arr : List α) : Nat :=
  binInsertPosAux cmp pivot arr (arr.length + 1) 0 arr.length

/-- V8's binary insertion sort (the `Array.prototype.sort` path for short
arrays; the run-detection/merge path for long arrays likewise moves an
element only on a negative comparator result, so for the never-negative
comparator of `_sortAndCapClels` both paths return the array unchanged —
proved below, not assumed). -/
def binaryInsertionSortAux (cmp : α → α → Int) : List α → List α → List α
  | [], sorted => sorted
  | x :: rest, sorted =>
    let pos := binInsertPos cmp x sorted
    binaryInsertionSortAux cmp rest (sorted.take pos ++ x :: sorted.drop pos)

/-- `Array.prototype.sort` with an `Int`-valued comparator, as performed by
V8 (ECMAScript leaves the order implementation-defined for comparators that
are not consistent comparison functions, as the boolean one here is not). -/
def binaryInsertionSort (cmp : α → α → Int) (l : List α) : List α :=
  binaryInsertionSortAux cmp l []

/-- `BioJSVisGProfiler.prototype._sortAndCapClels`: run `Array.prototype.sort`
with the boolean comparator (coerced to 0/1), then `slice(0, maxN)` when
`maxN` is truthy (nonzero).  `clelScores` is the score dictionary, read as a
function of the string. -/
def sortAndCapClels (clelScores : String → JSNum) (maxN : Nat)
    (clels : List (String × List ρ)) : List (String × List ρ) :=
  let sorted := binaryInsertionSort (sortCompNum clelScores) clels
  if maxN ≠ 0 then sorted.take maxN else sorted

/-! ### Control flow of `render` / `renderStored` / `_renderCloud`

`render` passes its raw query attributes straight to `GProfiler.query` and
only renders in the query callback; `renderStored` runs the distiller over the
response; `_renderCloud` then throws on a container selector that does not
match exactly one element, and otherwise collapses, scores, sorts/caps and
starts the d3-cloud layout.  The observable ordering of these effects is
modelled as an event trace. -/

inductive Ev where
  | queryIssued : Ev
  | distill : Ev
  | containerError : Ev
  | collapse : Ev
  | score : Ev
  | sortCap : Ev
  | layoutStart : Ev
deriving DecidableEq

/-- The configuration state relevant to the control-flow claims:
`container.length`, the number of elements the container selector matched. -/
structure Config where
  containerLen : Nat
deriving DecidableEq

/-- Trace of `BioJSVisGProfiler.prototype._renderCloud`: the container check
(`this.container.length !== 1` throws) runs before the collapse/score/sort
pipeline and the cloud layout start. -/
def renderCloudTrace (cfg : Config) : List Ev :=
  if cfg.containerLen ≠ 1 then [Ev.containerError]
  else [Ev.collapse, Ev.score, Ev.sortCap, Ev.layoutStart]

/-- Trace of `BioJSVisGProfiler.prototype.renderStored`: distill the stored
response, then `_renderCloud`. -/
def renderStoredTrace (cfg : Config) : List Ev :=
  Ev.distill :: renderCloudTrace cfg

/-- Trace of `BioJSVisGProfiler.prototype.render`: issue the g:Profiler query;
everything else happens inside the query callback. -/
def renderTrace (cfg : Config) : List Ev :=
  Ev.queryIssued :: renderStoredTrace cfg

/-- Position of the first occurrence of an event in a trace. -/
def posOf (tr : List Ev) (e : Ev) : Nat :=
  tr.findIdx (fun x => x == e)

/-! ### Default sizing callbacks and `_capValue` -/

/-- `BioJSVisGProfiler.prototype._capValue`. -/
def capValue [LinearOrder α] (x minx maxx : α) : α :=
  if x < minx then minx else if maxx < x then maxx else x

/-- `BioJSVisGProfiler.prototype._logBase`: `Math.log(x) / Math.log(b)`. -/
noncomputable def logBase (b x : ℝ) : ℝ :=
  Real.log x / Real.log b

/-- The local `cap` closure of `_defaultSizeCallbacks`: clamp to
`minS = 12`, `maxS = 72 * scaling`. -/
noncomputable def sizerCap (s scaling : ℝ) : ℝ :=
  capValue s 12 (72 * scaling)

/-- Default word-mode sizer `sizerWord`. -/
noncomputable def sizerWord (score scaling : ℝ) : ℝ :=
  sizerCap (logBase 2 (score * 600 + 1) * 12 * scaling) scaling

/-- Default term-mode sizer `sizerTerm`. -/
noncomputable def sizerTerm (score scaling : ℝ) : ℝ :=
  sizerCap (score * 800 * scaling) scaling

/-! ### Default scoring callback -/

/-- Default scorer (`cb.scorerWord`): starting from `0.0`, add
`Math.abs(_logBase(10, t.p_value))` for every term record. -/
noncomputable def scorerWord (termdata : List GTerm) : ℝ :=
  termdata.foldl (fun score t => score + |logBase 10 t.p_value|) 0

/-- `cb.scorerTerm` is the very same function object as `cb.scorerWord`
(`cb.scorerTerm = cb.scorerWord = ...`). -/
noncomputable def scorerTerm : List GTerm → ℝ :=
  scorerWord

/-! ### Default term-mode colorer -/

/-- The `domainColor` table of `_defaultColorCallbacks`; the d3 `category10`
ordinal scale hands out its fixed range in order of first use, so the inputs
1, 2, 3, 4 receive the first four catalogue colors. -/
def domainColor : List (String × String) :=
  [("BP", "#1f77b4"), ("MF", "#ff7f0e"), ("CC", "#2ca02c"), ("multiple", "#d62728")]

/-- Truthiness of the `domain` variable in `colorerTerm`: it is `undefined`
before first assignment and a string afterwards (the empty string is falsy). -/
def jsTruthyStr : Option String → Bool
  | none => false
  | some s => decide (s ≠ "")

/-- The `$.each` loop of `cb.colorerTerm`: remember the first (truthy) domain;
on meeting a different one, set `multiple` and break. -/
def colorerTermLoop : List GTerm → Option String → Option String × Bool
  | [], d => (d, false)
  | v :: ts, d =>
    if !(jsTruthyStr d) then colorerTermLoop ts (some v.domain)
    else if d ≠ some v.domain then (d, true)
    else colorerTermLoop ts d

/-- Default term-mode colorer `cb.colorerTerm`; `none` is `undefined`. -/
def colorerTerm (ts : List GTerm) : Option String :=
  let r := colorerTermLoop ts none
  if !r.2 then r.1.bind (fun d => jsObjGet domainColor d)
  else jsObjGet domainColor "multiple"

/-! ### Default word-mode distiller -/

/-- ASCII-level model of `String.prototype.toLowerCase`. -/
def jsLower (s : String) : String :=
  String.mk (s.data.map Char.toLower)

/-- ASCII-level model of `String.prototype.toUpperCase`. -/
def jsUpper (s : String) : String :=
  String.mk (s.data.map Char.toUpper)

/-- The four characters stripped from word ends by `normalizeWord`:
full stop, colon, comma, semicolon. -/
def isTrimPunct (c : Char) : Bool :=
  c == '.' || c == ':' || c == ',' || c == ';'

/-- Model of the `replace` call in `normalizeWord`: remove the maximal
trailing run of trim punctuation characters. -/
def stripTrailingPunct (s : String) : String :=
  String.mk ((s.data.reverse.dropWhile isTrimPunct).reverse)

/-- The `normalizeWord` closure of `cb.distillerWord`: lowercase the word
unless it equals its own uppercasing, then strip trailing punctuation. -/
def normalizeWord (w : String) : String :=
  stripTrailingPunct (if w == jsUpper w then w else jsLower w)

/-- Splitting worker: accumulate the current token (reversed) and cut at each
whitespace character. -/
def splitWsAux : List Char → List Char → List String
  | [], cur => [String.mk cur.reverse]
  | c :: cs, cur =>
    if c.isWhitespace then String.mk cur.reverse :: splitWsAux cs []
    else splitWsAux cs (c :: cur)

/-- Model of `term_name.split` on a whitespace pattern.  (The JavaScript
pattern collapses whitespace runs into a single separator; the model may
produce additional empty tokens at whitespace runs, which the length filter
below discards either way.) -/
def splitWs (s : String) : List String :=
  splitWsAux s.data []

/-- `cb.distillerWord`: normalize each whitespace-separated word of
`term_name` and keep it when it is not a stopword and has length above one.
The stopword table (an npm dependency, hashed to a truthiness table by the
constructor) is passed in as the predicate `stop`. -/
def distillerWord (stop : String → Bool) (r : GTerm) : List String :=
  (splitWs r.term_name).foldl
    (fun rt w0 =>
      let w := normalizeWord w0
      if !(stop w) && decide (1 < w.length) then rt ++ [w] else rt)
    []

/-- Specification-side helper: the distinct members of `ts` in first-seen
order, skipping those already in `seen`.  Used to state the key order produced
by `_collapseClels`. -/
def newTexts : List String → List String → List String
  | [], _ => []
  | t :: ts, seen => if t ∈ seen then newTexts ts seen else t :: newTexts ts (t :: seen)

end GProfilerVis

namespace GProfilerVis

/-! ## Helper lemmas -/

theorem capValue_mem_Icc [LinearOrder α] (x minx maxx : α) (h : minx ≤ maxx) :
    minx ≤ capValue x minx maxx ∧ capValue x minx maxx ≤ maxx := by
  unfold capValue
  split_ifs with h1 h2
  · exact ⟨le_refl _, h⟩
  · exact ⟨h, le_refl _⟩
  · exact ⟨not_lt.mp h1, not_lt.mp h2⟩

theorem foldl_add_abs_logBase (l : List GTerm) (a : ℝ) :
    l.foldl (fun score t => score + |logBase 10 t.p_value|) a =
      a + (l.map (fun t => |logBase 10 t.p_value|)).sum := by
  induction l generalizing a with
  | nil => simp
  | cons t l ih => simp [List.foldl_cons, ih, add_assoc]

theorem sum_map_div (l : List α) (f : α → ℚ) (T : ℚ) :
    (l.map (fun x => f x / T)).sum = (l.map f).sum / T := by
  induction l with
  | nil => simp
  | cons x l ih => simp [ih, add_div]

theorem jsObjInsert_fresh (m : List (String × α)) (k : String) (v : α)
    (h : ∀ p ∈ m, p.1 ≠ k) : jsObjInsert m k v = m ++ [(k, v)] := by
  have ha : m.any (fun p => p.1 == k) = false := by
    simp only [List.any_eq_false, beq_iff_eq]
    exact h
  simp [jsObjInsert, ha]

theorem scoreClels_foldl_snd (scorer : String → List ρ → JSNum)
    (clels : List (String × List ρ)) (m : List (String × JSNum)) (t : JSNum) :
    (clels.foldl (scoreClelsStep scorer) (m, t)).2 =
      clels.foldl (fun acc c => JSNum.jsadd acc (scorer c.1 c.2)) t := by
  induction clels generalizing m t with
  | nil => rfl
  | cons c clels ih => simp [List.foldl_cons, scoreClelsStep, ih]

theorem scoreClels_foldl_fst (scorer : String → List ρ → JSNum)
    (clels : List (String × List ρ)) (m : List (String × JSNum)) (t : JSNum)
    (hfresh : ∀ c ∈ clels, ∀ p ∈ m, p.1 ≠ c.1)
    (hnd : (clels.map Prod.fst).Nodup) :
    (clels.foldl (scoreClelsStep scorer) (m, t)).1 =
      m ++ clels.map (fun c => (c.1, scorer c.1 c.2)) := by
  induction clels generalizing m t with
  | nil => simp
  | cons c clels ih =>
    simp only [List.map_cons, List.nodup_cons, List.mem_map] at hnd
    have hm : jsObjInsert m c.1 (scorer c.1 c.2) = m ++ [(c.1, scorer c.1 c.2)] :=
      jsObjInsert_fresh m c.1 _ (fun p hp => hfresh c (List.mem_cons_self c clels) p hp)
    have hfresh2 : ∀ d ∈ clels, ∀ p ∈ m ++ [(c.1, scorer c.1 c.2)], p.1 ≠ d.1 := by
      intro d hd p hp
      rcases List.mem_append.mp hp with hp | hp
      · exact hfresh d (List.mem_cons_of_mem c hd) p hp
      · rcases List.mem_singleton.mp hp with rfl
        intro hcontra
        exact hnd.1 ⟨d, hd, hcontra.symm⟩
    simp only [List.foldl_cons, scoreClelsStep, hm]
    rw [ih _ _ hfresh2 hnd.2]
    simp

theorem foldl_jsadd_num (l : List (String × List ρ)) (q : String → List ρ → ℚ) (t0 : ℚ) :
    l.foldl (fun acc c => JSNum.jsadd acc (JSNum.num (q c.1 c.2))) (JSNum.num t0) =
      JSNum.num (t0 + (l.map (fun c => q c.1 c.2)).sum) := by
  induction l generalizing t0 with
  | nil => simp
  | cons c l ih =>
    rw [List.foldl_cons]
    have h : JSNum.jsadd (JSNum.num t0) (JSNum.num (q c.1 c.2)) =
        JSNum.num (t0 + q c.1 c.2) := rfl
    rw [h, ih, List.map_cons, List.sum_cons, add_assoc]

/-- Characterization of `_scoreClels` for a scorer returning plain numbers on
clels with pairwise distinct strings: each stored raw score gets divided (in
JavaScript semantics) by the total of all raw scores. -/
theorem scoreClels_num_characterization (q : String → List ρ → ℚ)
    (clels : List (String × List ρ)) (hnd : (clels.map Prod.fst).Nodup) :
    scoreClels (fun s rs => JSNum.num (q s rs)) clels =
      clels.map (fun c =>
        (c.1, JSNum.jsdiv (JSNum.num (q c.1 c.2))
          (JSNum.num ((clels.map (fun c => q c.1 c.2)).sum)))) := by
  simp only [scoreClels]
  rw [scoreClels_foldl_fst _ _ _ _ (by simp) hnd, scoreClels_foldl_snd,
    foldl_jsadd_num]
  simp [List.map_map, Function.comp]

/-- On pairwise-distinct strings with plain-number raw scores and a positive
total, `_scoreClels` returns each raw score divided by the total. -/
theorem scoreClels_pos_total (q : String → List ρ → ℚ)
    (clels : List (String × List ρ)) (hnd : (clels.map Prod.fst).Nodup)
    (hpos : 0 < (clels.map (fun c => q c.1 c.2)).sum) :
    scoreClels (fun s rs => JSNum.num (q s rs)) clels =
      clels.map (fun c =>
        (c.1, JSNum.num (q c.1 c.2 / (clels.map (fun c => q c.1 c.2)).sum))) := by
  rw [scoreClels_num_characterization q clels hnd]
  apply List.map_congr_left
  intro c hc
  simp [JSNum.jsdiv, ne_of_gt hpos]

/-- With a comparator that never returns a negative number, the binary
insertion search walks its left bound all the way up to the right bound. -/
theorem binInsertPosAux_of_nonneg (cmp : α → α → Int) (pivot : α) (arr : List α)
    (hcmp : ∀ a b, 0 ≤ cmp a b) :
    ∀ (fuel left right : Nat), right - left < fuel → left ≤ right →
      binInsertPosAux cmp pivot arr fuel left right = right := by
  intro fuel
  induction fuel with
  | zero => intro left right hf _; omega
  | succ fuel ih =>
    intro left right hf hlr
    rw [binInsertPosAux]
    by_cases h : left < right
    · rw [if_pos h]
      rw [if_neg (not_lt.mpr (hcmp _ _))]
      exact ih _ _ (by omega) (by omega)
    · rw [if_neg h]
      omega

/-- With a never-negative comparator the insertion position is the end of the
processed prefix. -/
theorem binInsertPos_of_nonneg (cmp : α → α → Int) (pivot : α) (arr : List α)
    (hcmp : ∀ a b, 0 ≤ cmp a b) : binInsertPos cmp pivot arr = arr.length :=
  binInsertPosAux_of_nonneg cmp pivot arr hcmp _ 0 arr.length (by omega) (by omega)

theorem binaryInsertionSortAux_of_nonneg (cmp : α → α → Int)
    (hcmp : ∀ a b, 0 ≤ cmp a b) :
    ∀ (l sorted : List α), binaryInsertionSortAux cmp l sorted = sorted ++ l := by
  intro l
  induction l with
  | nil => intro sorted; simp [binaryInsertionSortAux]
  | cons x rest ih =>
    intro sorted
    rw [binaryInsertionSortAux]
    simp only [binInsertPos_of_nonneg cmp x sorted hcmp]
    rw [List.take_length, List.drop_length, ih]
    simp

/-- The sort of `_sortAndCapClels` returns the array unchanged: its comparator
never returns a negative number, and the engine moves elements only on a
negative comparator result. -/
theorem binaryInsertionSort_of_nonneg (cmp : α → α → Int)
    (hcmp : ∀ a b, 0 ≤ cmp a b) (l : List α) : binaryInsertionSort cmp l = l := by
  rw [binaryInsertionSort, binaryInsertionSortAux_of_nonneg cmp hcmp]
  rfl

/-- The coerced boolean comparator is never negative, whatever the scores. -/
theorem sortCompNum_nonneg (clelScores : String → JSNum) (a b : String × List ρ) :
    0 ≤ sortCompNum clelScores a b := by
  unfold sortCompNum
  split <;> omega

/-- `_sortAndCapClels` leaves the clels in input (Normalizer) order and only
applies the cap. -/
theorem sortAndCapClels_eq_take (clelScores : String → JSNum) (maxN : Nat)
    (clels : List (String × List ρ)) :
    sortAndCapClels clelScores maxN clels =
      if maxN ≠ 0 then clels.take maxN else clels := by
  unfold sortAndCapClels
  rw [binaryInsertionSort_of_nonneg _ (sortCompNum_nonneg clelScores)]

/-! ## Claims -/

/-- C1 (corrected), counterexample to the claim as stated: with a container
selector matching zero elements, the container error is raised by the code,
but not before the query is issued — the query event strictly precedes it in
the trace of `render`. -/
theorem c1_query_precedes_container_error :
    (Config.mk 0).containerLen ≠ 1 ∧
    Ev.containerError ∈ renderTrace (Config.mk 0) ∧
    ¬ posOf (renderTrace (Config.mk 0)) Ev.containerError <
        posOf (renderTrace (Config.mk 0)) Ev.queryIssued := by
  decide

/-- C1 (amended): for every configuration whose container selector does not
resolve to exactly one element, the render entry point issues the annotation
query, distills its response, and then raises the container error before any
collapsing, scoring, sorting or layout work begins. -/
theorem c1_container_error_before_pipeline (cfg : Config)
    (h : cfg.containerLen ≠ 1) :
    renderTrace cfg = [Ev.queryIssued, Ev.distill, Ev.containerError] := by
  simp [renderTrace, renderStoredTrace, renderCloudTrace, h]

/-- C1 witness: the amended theorem applied to a container matching zero
elements. -/
theorem c1_container_error_witness :
    (Config.mk 0).containerLen ≠ 1 ∧
    renderTrace (Config.mk 0) = [Ev.queryIssued, Ev.distill, Ev.containerError] :=
  ⟨by decide, c1_container_error_before_pipeline (Config.mk 0) (by decide)⟩

/-- C6 (confirmed): the Selector's output length is `min maxN L` for a nonzero
cap `maxN` and `L` (the input length) for the unbounded cap `maxN = 0`. -/
theorem c6_sortAndCap_length (clelScores : String → JSNum) (maxN : Nat)
    (clels : List (String × List ρ)) :
    (sortAndCapClels clelScores maxN clels).length =
      if maxN = 0 then clels.length else min maxN clels.length := by
  rw [sortAndCapClels_eq_take]
  by_cases h : maxN = 0 <;> simp [h]

/-- C7 (corrected), counterexample to the claim as stated: at score `0` and
scaling `1/10` (both admissible under the claim), the word-mode sizer returns
the lower clamp `12`, which lies outside `[12, 72 * (1/10)]` because that
interval is empty. -/
theorem c7_small_scaling_counterexample :
    (0:ℝ) ≤ 0 ∧ (0:ℝ) ≤ 1 ∧ (0:ℝ) < 1/10 ∧
    ¬ (12 ≤ sizerWord 0 (1/10) ∧ sizerWord 0 (1/10) ≤ 72 * (1/10)) := by
  have h : sizerWord 0 (1/10) = 12 := by
    norm_num [sizerWord, sizerCap, capValue, logBase, Real.log_one]
  norm_num [h]

/-- C7 (amended): for every score in `[0, 1]` and every scaling of at least
`1/6` (exactly when the clamp interval `[12, 72 * scaling]` is nonempty), the
default word-mode and term-mode sizers return a value in `[12, 72 * scaling]`. -/
theorem c7_sizer_in_range (score scaling : ℝ) (h0 : 0 ≤ score) (h1 : score ≤ 1)
    (hsc : 1/6 ≤ scaling) :
    (12 ≤ sizerWord score scaling ∧ sizerWord score scaling ≤ 72 * scaling) ∧
    (12 ≤ sizerTerm score scaling ∧ sizerTerm score scaling ≤ 72 * scaling) := by
  have h : (12:ℝ) ≤ 72 * scaling := by linarith
  unfold sizerWord sizerTerm sizerCap
  exact ⟨capValue_mem_Icc _ _ _ h, capValue_mem_Icc _ _ _ h⟩

/-- C7 witness: the amended theorem applied at score `0`, scaling `1`. -/
theorem c7_sizer_in_range_witness :
    ((0:ℝ) ≤ 0 ∧ (0:ℝ) ≤ 1 ∧ (1:ℝ)/6 ≤ 1) ∧
    ((12 ≤ sizerWord 0 1 ∧ sizerWord 0 1 ≤ 72 * 1) ∧
      (12 ≤ sizerTerm 0 1 ∧ sizerTerm 0 1 ≤ 72 * 1)) :=
  ⟨⟨by norm_num, by norm_num, by norm_num⟩,
    c7_sizer_in_range 0 1 (by norm_num) (by norm_num) (by norm_num)⟩

/-- C9 (confirmed): the default scorer is the same function in word mode and
term mode, and it returns the sum over the element's records of the absolute
value of the base-10 logarithm of each record's p-value. -/
theorem c9_scorer_sum_abs_log :
    scorerTerm = scorerWord ∧
    ∀ termdata : List GTerm,
      scorerWord termdata = (termdata.map (fun t => |logBase 10 t.p_value|)).sum := by
  refine ⟨rfl, fun termdata => ?_⟩
  simpa using foldl_add_abs_logBase termdata 0

end GProfilerVis

namespace GProfilerVis

/-- C2 (corrected), counterexample to the claim as stated: on a two-element
clel list whose raw scores are all zero, `_scoreClels` does not signal any
error — it divides by the zero total and returns a NaN score for every
element (which is not a rational score at all). -/
theorem c2_zero_total_counterexample :
    scoreClels (fun _ _ => JSNum.num 0) ([("a", [0]), ("b", [0])] : List (String × List Nat)) =
      [("a", JSNum.nan), ("b", JSNum.nan)] ∧
    ∀ q : ℚ, JSNum.nan ≠ JSNum.num q := by
  constructor
  · simp +decide [scoreClels, scoreClelsStep, jsObjInsert, JSNum.jsadd, JSNum.jsdiv]
  · intro q h
    cases h

/-- C2 (amended): for every clel list with pairwise distinct strings on which
the scorer returns all-zero raw scores, `_scoreClels` signals no error: it
produces an output entry for every element, each scored NaN (the result of
dividing zero by the zero total); and for every such list with a positive raw
total it produces the normalized scores, likewise without failing. -/
theorem c2_scoreClels_never_fails (q : String → List ρ → ℚ)
    (clels : List (String × List ρ)) (hnd : (clels.map Prod.fst).Nodup) :
    ((∀ c ∈ clels, q c.1 c.2 = 0) →
      scoreClels (fun s rs => JSNum.num (q s rs)) clels =
        clels.map (fun c => (c.1, JSNum.nan))) ∧
    (0 < (clels.map (fun c => q c.1 c.2)).sum →
      scoreClels (fun s rs => JSNum.num (q s rs)) clels =
        clels.map (fun c =>
          (c.1, JSNum.num (q c.1 c.2 / (clels.map (fun c => q c.1 c.2)).sum)))) := by
  constructor
  · intro hz
    rw [scoreClels_num_characterization q clels hnd]
    have hsum : (clels.map (fun c => q c.1 c.2)).sum = 0 := by
      apply List.sum_eq_zero
      intro x hx
      rcases List.mem_map.mp hx with ⟨c, hc, rfl⟩
      exact hz c hc
    apply List.map_congr_left
    intro c hc
    simp [hsum, JSNum.jsdiv, hz c hc]
  · intro hpos
    exact scoreClels_pos_total q clels hnd hpos

/-- C2 witness: the amended theorem applied to a concrete all-zero input
(first half) and a concrete positive-total input (second half). -/
theorem c2_scoreClels_never_fails_witness :
    scoreClels (fun _ _ => JSNum.num 0) ([("a", [0]), ("b", [0])] : List (String × List Nat)) =
      [("a", JSNum.nan), ("b", JSNum.nan)] ∧
    scoreClels (fun _ _ => JSNum.num 1) ([("a", [0]), ("b", [0])] : List (String × List Nat)) =
      [("a", JSNum.num (1/2)), ("b", JSNum.num (1/2))] := by
  constructor
  · have h := (c2_scoreClels_never_fails (fun _ _ => (0:ℚ))
      ([("a", [0]), ("b", [0])] : List (String × List Nat)) (by decide)).1 (by simp)
    simpa using h
  · have h := (c2_scoreClels_never_fails (fun _ _ => (1:ℚ))
      ([("a", [0]), ("b", [0])] : List (String × List Nat)) (by decide)).2 (by norm_num)
    norm_num at h
    exact h

/-- C3 (confirmed): on every non-empty clel list with pairwise distinct
strings whose raw scores are non-negative with a positive total, `_scoreClels`
assigns each element its raw score divided by the total; every normalized
score is non-negative and they sum to one. -/
theorem c3_scoreClels_normalizes (q : String → List ρ → ℚ)
    (clels : List (String × List ρ)) (hnd : (clels.map Prod.fst).Nodup)
    (hne : clels ≠ [])
    (hpos : ∀ c ∈ clels, 0 ≤ q c.1 c.2)
    (htot : 0 < (clels.map (fun c => q c.1 c.2)).sum) :
    scoreClels (fun s rs => JSNum.num (q s rs)) clels =
      clels.map (fun c =>
        (c.1, JSNum.num (q c.1 c.2 / (clels.map (fun c => q c.1 c.2)).sum))) ∧
    (∀ c ∈ clels, 0 ≤ q c.1 c.2 / (clels.map (fun c => q c.1 c.2)).sum) ∧
    (clels.map (fun c => q c.1 c.2 / (clels.map (fun c => q c.1 c.2)).sum)).sum = 1 := by
  refine ⟨scoreClels_pos_total q clels hnd htot, ?_, ?_⟩
  · intro c hc
    exact div_nonneg (hpos c hc) (le_of_lt htot)
  · rw [sum_map_div]
    exact div_self (ne_of_gt htot)

/-- C3 witness: the theorem applied to a concrete two-element list whose raw
scores (the record counts 3 and 1) total 4. -/
theorem c3_scoreClels_normalizes_witness :
    scoreClels (fun _ rs => JSNum.num rs.length)
        ([("a", [0, 0, 0]), ("b", [0])] : List (String × List Nat)) =
      [("a", JSNum.num (3/4)), ("b", JSNum.num (1/4))] ∧
    ((3:ℚ)/4 + 1/4) = 1 := by
  have h := c3_scoreClels_normalizes (fun _ rs => (rs.length : ℚ))
    ([("a", [0, 0, 0]), ("b", [0])] : List (String × List Nat)) (by decide)
    (by simp) (by intro c hc; positivity) (by norm_num)
  refine ⟨?_, by norm_num⟩
  have h1 := h.1
  norm_num at h1 ⊢
  exact h1

end GProfilerVis

namespace GProfilerVis

/-- C4 (code bug): the comparator of `_sortAndCapClels` returns a boolean,
which sort coerces to 0 or 1 — never a negative number — so the engine's sort
moves nothing, although the function's own comment promises the clels sorted
by score.  On the concrete scored list with scores a = 1, b = 3 the Selector
returns the elements still in input order, which is not descending by score
(and hence the claimed descending/stable order fails). -/
theorem c4_selector_not_sorted :
    sortAndCapClels (fun s => JSNum.num (if s == "b" then 3 else 1)) 0
        ([("a", [0]), ("b", [0])] : List (String × List Nat)) =
      [("a", [0]), ("b", [0])] ∧
    ¬ (sortAndCapClels (fun s => JSNum.num (if s == "b" then 3 else 1)) 0
        ([("a", [0]), ("b", [0])] : List (String × List Nat))).Pairwise
      (fun a b => (if b.1 == "b" then (3:ℚ) else 1) ≤ (if a.1 == "b" then (3:ℚ) else 1)) := by
  have heq : sortAndCapClels (fun s => JSNum.num (if s == "b" then 3 else 1)) 0
      ([("a", [0]), ("b", [0])] : List (String × List Nat)) = [("a", [0]), ("b", [0])] := by
    rw [sortAndCapClels_eq_take]
    simp
  refine ⟨heq, ?_⟩
  rw [heq]
  intro hp
  have h := List.rel_of_pairwise_cons hp (List.mem_singleton.mpr rfl)
  simp at h

end GProfilerVis

namespace GProfilerVis

theorem newTexts_congr (ts : List String) (s1 s2 : List String)
    (h : ∀ x, x ∈ s1 ↔ x ∈ s2) : newTexts ts s1 = newTexts ts s2 := by
  induction ts generalizing s1 s2 with
  | nil => rfl
  | cons t ts ih =>
    by_cases ht : t ∈ s1
    · rw [newTexts, newTexts, if_pos ht, if_pos ((h t).mp ht)]
      exact ih s1 s2 h
    · rw [newTexts, newTexts, if_neg ht, if_neg (fun hc => ht ((h t).mpr hc))]
      exact congrArg _ (ih _ _ (fun x => by simp [h x]))

theorem newTexts_mem (ts : List String) (seen : List String) (x : String) :
    x ∈ newTexts ts seen ↔ x ∈ ts ∧ x ∉ seen := by
  induction ts generalizing seen with
  | nil => simp [newTexts]
  | cons t ts ih =>
    rw [newTexts]
    by_cases ht : t ∈ seen
    · rw [if_pos ht, ih]
      constructor
      · exact fun h => ⟨List.mem_cons_of_mem t h.1, h.2⟩
      · rintro ⟨h1, h2⟩
        rcases List.mem_cons.mp h1 with rfl | h1
        · exact absurd ht h2
        · exact ⟨h1, h2⟩
    · rw [if_neg ht, List.mem_cons, ih]
      constructor
      · rintro (rfl | ⟨h1, h2⟩)
        · exact ⟨List.mem_cons_self _ _, ht⟩
        · exact ⟨List.mem_cons_of_mem t h1, fun hc => h2 (List.mem_cons_of_mem t hc)⟩
      · rintro ⟨h1, h2⟩
        rcases List.mem_cons.mp h1 with rfl | h1
        · exact Or.inl rfl
        · by_cases hx : x = t
          · exact Or.inl hx
          · exact Or.inr ⟨h1, fun hc => by
              rcases List.mem_cons.mp hc with h | h
              · exact hx h
              · exact h2 h⟩

theorem newTexts_length_le (ts : List String) (seen : List String) :
    (newTexts ts seen).length ≤ ts.length := by
  induction ts generalizing seen with
  | nil => simp [newTexts]
  | cons t ts ih =>
    rw [newTexts]
    by_cases ht : t ∈ seen
    · rw [if_pos ht]
      exact le_trans (ih seen) (Nat.le_succ _)
    · rw [if_neg ht]
      simpa using ih (t :: seen)

theorem newTexts_nodup (ts : List String) (seen : List String) :
    (newTexts ts seen).Nodup := by
  induction ts generalizing seen with
  | nil => simp [newTexts]
  | cons t ts ih =>
    rw [newTexts]
    by_cases ht : t ∈ seen
    · rw [if_pos ht]; exact ih seen
    · rw [if_neg ht]
      refine List.nodup_cons.mpr ⟨fun hc => ?_, ih (t :: seen)⟩
      exact ((newTexts_mem ts (t :: seen) t).mp hc).2 (List.mem_cons_self t seen)

theorem collapsePure_of_mem (h : List (String × List ρ)) (v : String × ρ)
    (hv : v.1 ∈ h.map Prod.fst) :
    collapsePure h v = h.map (fun p => if p.1 == v.1 then (p.1, p.2 ++ [v.2]) else p) := by
  have ha : h.any (fun p => p.1 == v.1) = true := by
    simp only [List.any_eq_true, beq_iff_eq]
    rcases List.mem_map.mp hv with ⟨p, hp, hpv⟩
    exact ⟨p, hp, hpv⟩
  simp [collapsePure, ha]

theorem collapsePure_of_not_mem (h : List (String × List ρ)) (v : String × ρ)
    (hv : v.1 ∉ h.map Prod.fst) :
    collapsePure h v = h ++ [(v.1, [v.2])] := by
  have ha : h.any (fun p => p.1 == v.1) = false := by
    simp only [List.any_eq_false, beq_iff_eq]
    intro p hp hc
    exact hv (List.mem_map.mpr ⟨p, hp, hc⟩)
  simp [collapsePure, ha]

theorem collapse_foldl_keys (l : List (String × ρ)) (h : List (String × List ρ)) :
    (l.foldl collapsePure h).map Prod.fst =
      h.map Prod.fst ++ newTexts (l.map Prod.fst) (h.map Prod.fst) := by
  induction l generalizing h with
  | nil => simp [newTexts]
  | cons v l ih =>
    rw [List.foldl_cons, List.map_cons, newTexts]
    by_cases hv : v.1 ∈ h.map Prod.fst
    · rw [if_pos hv, collapsePure_of_mem h v hv, ih]
      congr 1
      · rw [List.map_map]
        apply List.map_congr_left
        intro p hp
        by_cases hpv : p.1 = v.1 <;> simp [hpv]
      · rw [List.map_map]
        congr 1
        apply List.map_congr_left
        intro p hp
        by_cases hpv : p.1 = v.1 <;> simp [hpv]
    · rw [if_neg hv, collapsePure_of_not_mem h v hv, ih]
      rw [List.map_append]
      simp only [List.map_cons, List.map_nil]
      rw [List.append_assoc]
      congr 1
      rw [List.singleton_append]
      congr 1
      apply newTexts_congr
      intro x
      simp [or_comm]

theorem jsObjGet_eq_none (h : List (String × α)) (k : String)
    (hk : k ∉ h.map Prod.fst) : jsObjGet h k = none := by
  unfold jsObjGet
  rw [List.find?_eq_none.mpr]
  · rfl
  · intro p hp
    simp only [beq_iff_eq]
    intro hc
    exact hk (List.mem_map.mpr ⟨p, hp, hc⟩)

theorem jsObjGet_cons (q : String × α) (h : List (String × α)) (j : String) :
    jsObjGet (q :: h) j = if q.1 = j then some q.2 else jsObjGet h j := by
  by_cases hq : q.1 = j
  · rw [if_pos hq]
    unfold jsObjGet
    rw [List.find?_cons_of_pos _ (by simpa using hq)]
    rfl
  · rw [if_neg hq]
    unfold jsObjGet
    rw [List.find?_cons_of_neg _ (by simpa using hq)]

theorem jsObjGet_mem_nodup (h : List (String × List ρ)) (p : String × List ρ)
    (hnd : (h.map Prod.fst).Nodup) (hp : p ∈ h) : jsObjGet h p.1 = some p.2 := by
  induction h with
  | nil => cases hp
  | cons q h ih =>
    simp only [List.map_cons, List.nodup_cons] at hnd
    rw [jsObjGet_cons]
    rcases List.mem_cons.mp hp with rfl | hp
    · rw [if_pos rfl]
    · rw [if_neg (fun hc => hnd.1 (List.mem_map.mpr ⟨p, hp, hc.symm⟩))]
      exact ih hnd.2 hp

theorem jsObjGet_update (h : List (String × List ρ)) (k j : String) (x : ρ) :
    jsObjGet (h.map (fun p => if p.1 == k then (p.1, p.2 ++ [x]) else p)) j =
      if j = k then (jsObjGet h j).map (fun rs => rs ++ [x])
      else jsObjGet h j := by
  induction h with
  | nil => by_cases hjk : j = k <;> simp [jsObjGet, hjk]
  | cons q h ih =>
    rw [List.map_cons]
    by_cases hqk : q.1 = k
    · rw [if_pos (beq_iff_eq.mpr hqk), jsObjGet_cons, jsObjGet_cons]
      by_cases hqj : q.1 = j
      · have hjk : j = k := hqj ▸ hqk
        rw [if_pos hqj, if_pos hqj, if_pos hjk]
        rfl
      · rw [if_neg hqj, if_neg hqj, ih]
    · rw [if_neg (by simpa using hqk : ¬(q.1 == k) = true), jsObjGet_cons, jsObjGet_cons]
      by_cases hqj : q.1 = j
      · have hjk : ¬ j = k := fun hc => hqk (hqj ▸ hc)
        rw [if_pos hqj, if_pos hqj, if_neg hjk]
      · rw [if_neg hqj, if_neg hqj, ih]

theorem collapse_foldl_nodup (l : List (String × ρ)) (h : List (String × List ρ))
    (hnd : (h.map Prod.fst).Nodup) :
    ((l.foldl collapsePure h).map Prod.fst).Nodup := by
  rw [collapse_foldl_keys]
  apply List.Nodup.append hnd (newTexts_nodup _ _)
  intro x hx hx2
  exact ((newTexts_mem _ _ x).mp hx2).2 hx

theorem collapse_foldl_records (l : List (String × ρ)) (h : List (String × List ρ))
    (hnd : (h.map Prod.fst).Nodup) (p : String × List ρ)
    (hp : p ∈ l.foldl collapsePure h) :
    p.2 = ((jsObjGet h p.1).getD []) ++ (l.filter (fun v => v.1 == p.1)).map Prod.snd := by
  induction l generalizing h p with
  | nil =>
    simp only [List.foldl_nil] at hp
    rw [jsObjGet_mem_nodup h p hnd hp]
    simp
  | cons v l ih =>
    rw [List.foldl_cons] at hp
    by_cases hv : v.1 ∈ h.map Prod.fst
    · rw [collapsePure_of_mem h v hv] at hp
      have hrec := ih _ (by
        rw [List.map_map]
        have : (Prod.fst ∘ fun p : String × List ρ =>
            if p.1 == v.1 then (p.1, p.2 ++ [v.2]) else p) = Prod.fst := by
          funext p
          by_cases hpv : p.1 = v.1 <;> simp [Function.comp, hpv]
        rw [this]
        exact hnd) p hp
      rw [jsObjGet_update] at hrec
      by_cases hpv : p.1 = v.1
      · rw [if_pos hpv] at hrec
        rcases List.mem_map.mp hv with ⟨w, hw, hwv⟩
        have hget : jsObjGet h p.1 = some w.2 := hpv ▸ hwv ▸ jsObjGet_mem_nodup h w hnd hw
        rw [hget] at hrec
        rw [hget]
        simp only [Option.getD_some, Option.map_some] at hrec ⊢
        rw [hrec, List.filter_cons, if_pos (by simpa using hpv.symm)]
        simp
      · rw [if_neg hpv] at hrec
        rw [hrec, List.filter_cons, if_neg (by simpa using fun hc => hpv hc.symm)]
    · rw [collapsePure_of_not_mem h v hv] at hp
      have hnd2 : ((h ++ [(v.1, [v.2])]).map Prod.fst).Nodup := by
        rw [List.map_append]
        simp only [List.map_cons, List.map_nil]
        apply List.Nodup.append hnd (List.nodup_singleton _)
        intro x hx hx2
        rcases List.mem_singleton.mp hx2 with rfl
        exact hv hx
      have hrec := ih _ hnd2 p hp
      by_cases hpv : p.1 = v.1
      · have hget : jsObjGet (h ++ [(v.1, [v.2])]) p.1 = some [v.2] := by
          unfold jsObjGet
          rw [List.find?_append, List.find?_eq_none.mpr (fun q hq => by
            simp only [beq_iff_eq]
            intro hc
            exact hv (hpv ▸ hc ▸ List.mem_map.mpr ⟨q, hq, rfl⟩))]
          simp [hpv.symm]
        rw [hget] at hrec
        rw [jsObjGet_eq_none h p.1 (hpv ▸ hv)]
        rw [hrec, List.filter_cons, if_pos (by simpa using hpv.symm)]
        simp
      · have hget : jsObjGet (h ++ [(v.1, [v.2])]) p.1 = jsObjGet h p.1 := by
          unfold jsObjGet
          rw [List.find?_append]
          by_cases hfind : (List.find? (fun q => q.1 == p.1) h).isSome
          · rcases Option.isSome_iff_exists.mp hfind with ⟨q, hq⟩
            rw [hq]
            rfl
          · rw [Option.not_isSome_iff_eq_none.mp hfind,
              List.find?_cons_of_neg _ (by simpa using fun hc : v.1 = p.1 => hpv hc.symm)]
            simp
        rw [hget] at hrec
        rw [hrec, List.filter_cons, if_neg (by simpa using fun hc => hpv hc.symm)]

/-- When no text collides with an inherited `Object.prototype` name, the
collapse loop never throws and reduces to the pure accumulation. -/
theorem collapseLoop_of_safe (l : List (String × ρ)) (h : List (String × List ρ))
    (hsafe : ∀ v ∈ l, v.1 ∉ protoKeys) :
    collapseLoop l h = Except.ok (l.foldl collapsePure h) := by
  induction l generalizing h with
  | nil => rfl
  | cons v l ih =>
    have hstep : collapseStep h v = Except.ok (collapsePure h v) := by
      unfold collapseStep collapsePure
      by_cases hany : h.any (fun p => p.1 == v.1)
      · rw [if_pos hany, if_pos hany]
      · rw [if_neg hany, if_neg hany,
          if_neg (by simpa using hsafe v (List.mem_cons_self _ _))]
    rw [List.foldl_cons]
    simp only [collapseLoop, hstep]
    exact ih _ (fun w hw => hsafe w (List.mem_cons_of_mem v hw))

/-- Looking every own key up in its own object reproduces the object (keys
pairwise distinct). -/
theorem filterMap_keys_eq_self (h : List (String × List ρ))
    (hnd : (h.map Prod.fst).Nodup) :
    (h.map Prod.fst).filterMap (fun k => (jsObjGet h k).map (fun v => (k, v))) = h := by
  induction h with
  | nil => rfl
  | cons p h ih =>
    simp only [List.map_cons, List.nodup_cons] at hnd
    rw [List.map_cons, List.filterMap_cons]
    have hself : jsObjGet (p :: h) p.1 = some p.2 := by
      rw [jsObjGet_cons, if_pos rfl]
    rw [hself]
    have htail : (h.map Prod.fst).filterMap
        (fun k => (jsObjGet (p :: h) k).map (fun v => (k, v))) =
        (h.map Prod.fst).filterMap (fun k => (jsObjGet h k).map (fun v => (k, v))) := by
      apply List.filterMap_congr
      intro k hk
      rw [jsObjGet_cons, if_neg (fun hc => hnd.1 (by rw [hc]; exact hk))]
    rw [htail, ih hnd.2]
    rfl

/-- C5 (corrected), counterexample to the claim as stated: the text "21" is a
canonical array index, so `Object.keys` enumerates it before the earlier-seen
"ab" and the output violates first-seen order; and the text "constructor"
collides with an inherited `Object.prototype` member, so the collapse loop
throws instead of producing any output. -/
theorem c5_collapse_counterexample :
    collapseClels ([("ab", 1), ("21", 2)] : List (String × Nat)) =
      Except.ok [("21", [2]), ("ab", [1])] ∧
    collapseClels ([("constructor", 1)] : List (String × Nat)) = Except.error () := by
  constructor
  · rfl
  · rfl

/-- C5 (amended): for every ordered list of (text, record) pairs whose texts
are neither canonical array indices nor inherited `Object.prototype` names,
the Normalizer succeeds and outputs exactly one clel per distinct text (texts
pairwise distinct and exactly the distinct input texts, in first-seen order),
each clel's records are exactly the records paired with its text in encounter
order, and the output is no longer than the input. -/
theorem c5_normalizer_collapse (l : List (String × ρ))
    (hsafe : ∀ v ∈ l, isArrayIndex v.1 = false ∧ v.1 ∉ protoKeys) :
    ∃ out, collapseClels l = Except.ok out ∧
      (out.map Prod.fst).Nodup ∧
      out.map Prod.fst = newTexts (l.map Prod.fst) [] ∧
      (∀ s : String, s ∈ out.map Prod.fst ↔ s ∈ l.map Prod.fst) ∧
      (∀ p ∈ out, p.2 = (l.filter (fun v => v.1 == p.1)).map Prod.snd) ∧
      out.length ≤ l.length := by
  have hkeys : (l.foldl collapsePure []).map Prod.fst = newTexts (l.map Prod.fst) [] := by
    simpa using collapse_foldl_keys l []
  have hnd : ((l.foldl collapsePure []).map Prod.fst).Nodup :=
    collapse_foldl_nodup l [] (by simp)
  have hmem : ∀ s, s ∈ (l.foldl collapsePure []).map Prod.fst ↔ s ∈ l.map Prod.fst := by
    intro s
    rw [hkeys, newTexts_mem]
    simp
  have hentries : jsObjEntries (l.foldl collapsePure []) = l.foldl collapsePure [] := by
    unfold jsObjEntries
    have hidx : ∀ k ∈ (l.foldl collapsePure []).map Prod.fst, isArrayIndex k = false := by
      intro k hk
      rcases List.mem_map.mp ((hmem k).mp hk) with ⟨v, hv, rfl⟩
      exact (hsafe v hv).1
    have horder : jsOwnKeysOrder ((l.foldl collapsePure []).map Prod.fst) =
        (l.foldl collapsePure []).map Prod.fst := by
      unfold jsOwnKeysOrder
      rw [List.filter_eq_nil_iff.mpr (fun k hk => by simp [hidx k hk]),
        List.filter_eq_self.mpr (fun k hk => by simp [hidx k hk])]
      rfl
    rw [horder]
    exact filterMap_keys_eq_self _ hnd
  refine ⟨l.foldl collapsePure [], ?_, hnd, hkeys, hmem, ?_, ?_⟩
  · simp only [collapseClels, collapseLoop_of_safe l [] (fun v hv => (hsafe v hv).2), hentries]
  · intro p hp
    have h := collapse_foldl_records l [] (by simp) p hp
    simpa [jsObjGet] using h
  · have h1 : (l.foldl collapsePure []).length =
        ((l.foldl collapsePure []).map Prod.fst).length := (List.length_map _ _).symm
    rw [h1, hkeys]
    calc (newTexts (l.map Prod.fst) []).length ≤ (l.map Prod.fst).length :=
          newTexts_length_le _ _
      _ = l.length := List.length_map _ _

/-- C5 witness: the amended theorem applied to a concrete three-pair list with
a repeated text. -/
theorem c5_normalizer_collapse_witness :
    (∀ v ∈ ([("ab", 1), ("cd", 2), ("ab", 3)] : List (String × Nat)),
      isArrayIndex v.1 = false ∧ v.1 ∉ protoKeys) ∧
    ∃ out, collapseClels ([("ab", 1), ("cd", 2), ("ab", 3)] : List (String × Nat)) =
        Except.ok out ∧
      (out.map Prod.fst).Nodup ∧
      out.map Prod.fst =
        newTexts (([("ab", 1), ("cd", 2), ("ab", 3)] : List (String × Nat)).map Prod.fst) [] ∧
      (∀ s : String, s ∈ out.map Prod.fst ↔
        s ∈ ([("ab", 1), ("cd", 2), ("ab", 3)] : List (String × Nat)).map Prod.fst) ∧
      (∀ p ∈ out, p.2 =
        (([("ab", 1), ("cd", 2), ("ab", 3)] : List (String × Nat)).filter
          (fun v => v.1 == p.1)).map Prod.snd) ∧
      out.length ≤ ([("ab", 1), ("cd", 2), ("ab", 3)] : List (String × Nat)).length :=
  ⟨by decide, c5_normalizer_collapse _ (by decide)⟩

end GProfilerVis

namespace GProfilerVis

/-- The `$.each` loop of `colorerTerm`, once the domain variable holds a
truthy (nonempty) string, keeps that domain and reports `multiple` exactly
when some remaining record has a different domain. -/
theorem colorerTermLoop_truthy (ts : List GTerm) (d0 : String) (hd0 : d0 ≠ "") :
    colorerTermLoop ts (some d0) =
      if ts.all (fun v => v.domain == d0) then (some d0, false) else (some d0, true) := by
  induction ts with
  | nil => simp [colorerTermLoop]
  | cons v ts ih =>
    rw [colorerTermLoop]
    have htruthy : jsTruthyStr (some d0) = true := by simp [jsTruthyStr, hd0]
    rw [htruthy]
    simp only [Bool.not_true, Bool.false_eq_true, if_false]
    by_cases hv : v.domain = d0
    · rw [if_neg (by simp [hv]), ih]
      simp [List.all_cons, hv]
    · rw [if_pos (by simp; exact fun hc => hv hc.symm)]
      simp [List.all_cons, hv]

/-- C8 (confirmed): for every element whose records list is non-empty (with
the domain tags drawn from the nonempty enum strings), the default term-mode
colorer returns the palette entry keyed by the records' common domain when
they all share one domain, and the distinguished multiple-domains color
exactly when more than one distinct domain occurs. -/
theorem c8_colorer_term_domain (ts : List GTerm) (hne : ts ≠ [])
    (hdom : ∀ v ∈ ts, v.domain ≠ "") :
    colorerTerm ts =
      if 1 < (ts.map GTerm.domain).toFinset.card
      then some "#d62728"
      else jsObjGet domainColor ((ts.map GTerm.domain).headI) := by
  rcases ts with _ | ⟨v, rest⟩
  · exact absurd rfl hne
  have hv : v.domain ≠ "" := hdom v (List.mem_cons_self _ _)
  have hloop : colorerTermLoop (v :: rest) none = colorerTermLoop rest (some v.domain) := by
    rw [colorerTermLoop]
    simp [jsTruthyStr]
  by_cases hall : rest.all (fun w => w.domain == v.domain)
  · have heq : colorerTermLoop (v :: rest) none = (some v.domain, false) := by
      rw [hloop, colorerTermLoop_truthy rest v.domain hv, if_pos hall]
    have hset : ((v :: rest).map GTerm.domain).toFinset = {v.domain} := by
      apply Finset.eq_singleton_iff_unique_mem.mpr
      refine ⟨by simp, ?_⟩
      intro x hx
      rcases List.mem_map.mp (List.mem_toFinset.mp hx) with ⟨w, hw, rfl⟩
      rcases List.mem_cons.mp hw with rfl | hw
      · rfl
      · exact beq_iff_eq.mp (List.all_eq_true.mp hall w hw)
    have hc1 : ¬ 1 < ((v :: rest).map GTerm.domain).toFinset.card := by
      rw [hset, Finset.card_singleton]
      exact lt_irrefl 1
    rw [if_neg hc1]
    simp [colorerTerm, heq, List.headI]
  · have heq : colorerTermLoop (v :: rest) none = (some v.domain, true) := by
      rw [hloop, colorerTermLoop_truthy rest v.domain hv, if_neg hall]
    have hex : ∃ w ∈ rest, w.domain ≠ v.domain := by
      by_contra hno
      push_neg at hno
      exact hall (List.all_eq_true.mpr (fun w hw => beq_iff_eq.mpr (hno w hw)))
    rcases hex with ⟨w, hw, hwv⟩
    have hc : 1 < ((v :: rest).map GTerm.domain).toFinset.card := by
      apply Finset.one_lt_card.mpr
      refine ⟨v.domain, by simp, w.domain, ?_, fun hc => hwv hc.symm⟩
      exact List.mem_toFinset.mpr (List.mem_map.mpr ⟨w, List.mem_cons_of_mem v hw, rfl⟩)
    rw [if_pos hc]
    have hmul : colorerTerm (v :: rest) = jsObjGet domainColor "multiple" := by
      simp [colorerTerm, heq]
    rw [hmul]
    decide

/-- C8 witness: the theorem applied to an element with one BP and one MF
record, which receives the distinguished multiple-domains color. -/
theorem c8_colorer_term_witness :
    (([GTerm.mk "GO:1" "x" 1 "BP", GTerm.mk "GO:2" "y" 1 "MF"] : List GTerm) ≠ []) ∧
    (∀ v ∈ [GTerm.mk "GO:1" "x" 1 "BP", GTerm.mk "GO:2" "y" 1 "MF"], v.domain ≠ "") ∧
    colorerTerm [GTerm.mk "GO:1" "x" 1 "BP", GTerm.mk "GO:2" "y" 1 "MF"] = some "#d62728" := by
  refine ⟨List.cons_ne_nil _ _, by decide, ?_⟩
  rw [c8_colorer_term_domain [GTerm.mk "GO:1" "x" 1 "BP", GTerm.mk "GO:2" "y" 1 "MF"]
    (List.cons_ne_nil _ _) (by decide)]
  rw [if_pos (by decide)]

end GProfilerVis

namespace GProfilerVis

theorem toLower_isUpper_eq_false (c : Char) : (Char.toLower c).isUpper = false := by
  unfold Char.toLower
  by_cases h : 65 ≤ c.toNat ∧ c.toNat ≤ 90
  · rw [if_pos h]
    obtain ⟨h1, h2⟩ := h
    generalize c.toNat = n at h1 h2 ⊢
    interval_cases n <;> decide
  · rw [if_neg h]
    unfold Char.isUpper
    by_cases h65 : (65 : UInt32) ≤ c.val
    · have h65n : 65 ≤ c.toNat := UInt32.le_toNat_of_le (by decide) h65
      have h90n : ¬ c.toNat ≤ 90 := fun hc => h ⟨h65n, hc⟩
      have h90 : ¬ c.val ≤ (90 : UInt32) := fun hc => h90n (UInt32.toNat_le_of_le (by decide) hc)
      simp [h90]
    · simp [h65]

theorem stripTrailingPunct_getLast (s : String) (c : Char)
    (h : (stripTrailingPunct s).data.getLast? = some c) : isTrimPunct c = false := by
  unfold stripTrailingPunct at h
  rw [show (String.mk ((s.data.reverse.dropWhile isTrimPunct).reverse)).data =
    (s.data.reverse.dropWhile isTrimPunct).reverse from rfl] at h
  rw [List.getLast?_reverse] at h
  have hd := List.head?_dropWhile_not isTrimPunct s.data.reverse
  rw [h] at hd
  exact hd

theorem stripTrailingPunct_mem (s : String) (c : Char)
    (h : c ∈ (stripTrailingPunct s).data) : c ∈ s.data := by
  unfold stripTrailingPunct at h
  rw [show (String.mk ((s.data.reverse.dropWhile isTrimPunct).reverse)).data =
    (s.data.reverse.dropWhile isTrimPunct).reverse from rfl] at h
  rw [List.mem_reverse] at h
  exact List.mem_reverse.mp ((List.dropWhile_sublist isTrimPunct).subset h)

/-- Every string accumulated by the `distillerWord` loop either was already in
the accumulator or is the normalization of some input word, passing the
stopword and length filters. -/
theorem distiller_foldl_mem (stop : String → Bool) (l : List String)
    (acc : List String) (s : String)
    (hs : s ∈ l.foldl (fun rt w0 =>
      let w := normalizeWord w0
      if !(stop w) && decide (1 < w.length) then rt ++ [w] else rt) acc) :
    s ∈ acc ∨ ∃ w0 ∈ l, s = normalizeWord w0 ∧ stop s = false ∧ 1 < s.length := by
  induction l generalizing acc with
  | nil => exact Or.inl hs
  | cons w0 l ih =>
    rw [List.foldl_cons] at hs
    rcases ih _ hs with hacc | ⟨w1, hw1, hprop⟩
    · dsimp only at hacc
      by_cases hcond : !(stop (normalizeWord w0)) && decide (1 < (normalizeWord w0).length)
      · rw [if_pos hcond] at hacc
        rcases List.mem_append.mp hacc with hacc2 | hs2
        · exact Or.inl hacc2
        · rcases List.mem_singleton.mp hs2 with rfl
          rcases Bool.and_eq_true_iff.mp hcond with ⟨hstop, hlen⟩
          refine Or.inr ⟨w0, List.mem_cons_self _ _, rfl, ?_, of_decide_eq_true hlen⟩
          simpa using hstop
      · rw [if_neg hcond] at hacc
        exact Or.inl hacc
    · exact Or.inr ⟨w1, List.mem_cons_of_mem w0 hw1, hprop⟩

/-- C10 (confirmed): every string produced by the default word-mode distiller
has length above one, is not a stopword, carries no trailing trim-punctuation
character, and is the normalization of one of the whitespace-separated words
of the record's term name — in particular it contains no uppercase letter
whenever that original word was not entirely uppercase. -/
theorem c10_distiller_word (stop : String → Bool) (r : GTerm) (s : String)
    (hs : s ∈ distillerWord stop r) :
    1 < s.length ∧ stop s = false ∧
    (∀ c, s.data.getLast? = some c → isTrimPunct c = false) ∧
    ∃ w ∈ splitWs r.term_name, s = normalizeWord w ∧
      (w ≠ jsUpper w → ∀ c ∈ s.data, c.isUpper = false) := by
  rcases distiller_foldl_mem stop (splitWs r.term_name) [] s hs with
    hacc | ⟨w0, hw0, rfl, hstop, hlen⟩
  · cases hacc
  · refine ⟨hlen, hstop, ?_, w0, hw0, rfl, ?_⟩
    · intro c hc
      exact stripTrailingPunct_getLast _ c hc
    · intro hne c hc
      have hlow : normalizeWord w0 = stripTrailingPunct (jsLower w0) := by
        unfold normalizeWord
        rw [if_neg (by simpa using hne)]
      rw [hlow] at hc
      have hmem : c ∈ (jsLower w0).data := stripTrailingPunct_mem _ c hc
      rw [show (jsLower w0).data = w0.data.map Char.toLower from rfl] at hmem
      rcases List.mem_map.mp hmem with ⟨d, hd, rfl⟩
      exact toLower_isUpper_eq_false d

/-- C10 witness: the theorem applied to the output string "regulation" of a
concrete record whose term name mixes cases, stopwords and punctuation. -/
theorem c10_distiller_word_witness :
    "regulation" ∈ distillerWord (fun s => s == "of")
        (GTerm.mk "GO:1" "Regulation OF binding activity." 1 "BP") ∧
    (1 < "regulation".length ∧ (fun s => s == "of") "regulation" = false ∧
      (∀ c, "regulation".data.getLast? = some c → isTrimPunct c = false) ∧
      ∃ w ∈ splitWs (GTerm.mk "GO:1" "Regulation OF binding activity." 1 "BP").term_name,
        "regulation" = normalizeWord w ∧
        (w ≠ jsUpper w → ∀ c ∈ "regulation".data, c.isUpper = false)) :=
  ⟨by decide, c10_distiller_word (fun s => s == "of")
    (GTerm.mk "GO:1" "Regulation OF binding activity." 1 "BP") "regulation" (by decide)⟩

end GProfilerVis
